import Mathlib

/-!
Shallow embedding of the Market Data Publisher (fastify + socket.io + mysql
service) and verification of the frozen claims about it.

The embedding follows `src/main.ts` (first iteration) and
`src/unnamed/part_000`. Pure data transformations (batch splitting, delta
padding) are translated directly; the SQL queries are modelled by executable
functions over an explicit in-memory store with SQL LEFT JOIN / GROUP BY
semantics; the asynchronous dispatch of the rxjs `Subject` subscriber is
modelled with an explicit latency oracle.
-/

namespace MDP

/-- The side of an order or execution (`"ask" | "bid"` in the source). -/
inductive Side where
  | ask
  | bid
deriving DecidableEq, Repr

/-- `interface Execution extends Order` from `src/main.ts`: the rows posted to
`POST /executions`. -/
structure Execution where
  secnum : Nat
  quantity : Nat
  price : ℚ
  symbol : String
  side : Side
deriving DecidableEq, Repr

/-- `class SimpleExecution` from `src/main.ts`: the projection
`new SimpleExecution(e.price, e.side, e.symbol)` used for the event bus. -/
structure SimpleExecution where
  price : ℚ
  side : Side
  symbol : String
deriving DecidableEq, Repr

/-- `e => new SimpleExecution(e.price, e.side, e.symbol)` from
`handleExecutions`. -/
def Execution.toSimple (e : Execution) : SimpleExecution :=
  ⟨e.price, e.side, e.symbol⟩

/-- `handleExecutions` from `src/main.ts` (lines 205-214) and
`src/unnamed/part_000` (lines 190-199): splits a mixed-symbol array into
single-symbol batches, emitting (here: returning, in emission order) one
batch per first-seen symbol.  The recursive call receives the entries whose
symbol differs from the first entry's symbol. -/
def handleExecutions : List Execution → List (List SimpleExecution)
  | [] => []
  | e :: rest =>
    ((e :: rest).filter (fun x => x.symbol = e.symbol)).map Execution.toSimple ::
      handleExecutions ((e :: rest).filter (fun x => ¬ x.symbol = e.symbol))
termination_by arr => arr.length
decreasing_by
  simp only [List.filter_cons, decide_not, decide_True, Bool.not_true,
    Bool.false_eq_true, if_false]
  exact Nat.lt_succ_of_le (List.length_filter_le _ rest)

/-- First-occurrence deduplication of a list of symbols: the order in which
`handleExecutions` visits distinct symbols. -/
def firstSeen : List String → List String
  | [] => []
  | s :: rest => s :: firstSeen (rest.filter (fun x => ¬ x = s))
termination_by l => l.length
decreasing_by
  exact Nat.lt_succ_of_le (List.length_filter_le _ rest)

theorem mem_firstSeen {l : List String} {s : String} (h : s ∈ firstSeen l) : s ∈ l := by
  induction l using firstSeen.induct with
  | case1 => simp [firstSeen] at h
  | case2 a rest ih =>
    rw [firstSeen] at h
    rcases List.mem_cons.mp h with h1 | h1
    · simp [h1]
    · right
      exact List.mem_of_mem_filter (ih h1)

theorem mem_firstSeen_of_mem {l : List String} {s : String} (h : s ∈ l) : s ∈ firstSeen l := by
  induction l using firstSeen.induct with
  | case1 => simp at h
  | case2 a rest ih =>
    rw [firstSeen]
    rcases List.mem_cons.mp h with h1 | h1
    · exact h1 ▸ List.mem_cons_self _ _
    · by_cases hs : s = a
      · exact hs ▸ List.mem_cons_self _ _
      · refine List.mem_cons_of_mem _ (ih ?_)
        exact List.mem_filter.mpr ⟨h1, by simpa using hs⟩

theorem nodup_firstSeen (l : List String) : (firstSeen l).Nodup := by
  induction l using firstSeen.induct with
  | case1 => simp [firstSeen]
  | case2 a rest ih =>
    rw [firstSeen]
    refine List.nodup_cons.mpr ⟨fun hmem => ?_, ih⟩
    have := List.mem_filter.mp (mem_firstSeen hmem)
    simp at this

theorem length_firstSeen (l : List String) : (firstSeen l).length = l.dedup.length := by
  refine ((List.perm_ext_iff_of_nodup (nodup_firstSeen l) l.nodup_dedup).mpr
    (fun a => ?_)).length_eq
  rw [List.mem_dedup]
  exact ⟨mem_firstSeen, mem_firstSeen_of_mem⟩

/-- Core characterisation of `handleExecutions`: it returns one batch per
distinct symbol, in order of each symbol's first occurrence, each batch being
the subsequence of entries of that symbol in their original relative order. -/
theorem handleExecutions_eq (arr : List Execution) :
    handleExecutions arr =
      (firstSeen (arr.map Execution.symbol)).map
        (fun s => (arr.filter (fun e => e.symbol = s)).map Execution.toSimple) := by
  induction arr using handleExecutions.induct with
  | case1 => simp [handleExecutions, firstSeen]
  | case2 e rest ih =>
    rw [handleExecutions, List.map_cons, firstSeen, List.map_cons, ih]
    have harr :
        (e :: rest).filter (fun x => ¬ x.symbol = e.symbol) =
          rest.filter (fun x => ¬ x.symbol = e.symbol) := by
      simp [List.filter_cons]
    have hmap :
        ((e :: rest).filter (fun x => ¬ x.symbol = e.symbol)).map Execution.symbol =
          (rest.map Execution.symbol).filter (fun x => ¬ x = e.symbol) := by
      rw [harr, List.filter_map]
      rfl
    rw [hmap]
    refine congrArg₂ _ rfl (List.map_congr_left (fun s hs => ?_))
    have hs1 : s ∈ (rest.map Execution.symbol).filter (fun x => ¬ x = e.symbol) :=
      mem_firstSeen hs
    have hsne : ¬ s = e.symbol := by
      have := (List.mem_filter.mp hs1).2
      simpa using this
    refine congrArg _ ?_
    rw [harr, List.filter_filter]
    rw [List.filter_cons]
    have he : (decide (e.symbol = s)) = false := decide_eq_false (fun h => hsne h.symm)
    simp only [he, Bool.false_eq_true, if_false]
    refine List.filter_congr (fun x _ => ?_)
    by_cases hx : x.symbol = s
    · simp [hx, fun h : s = e.symbol => hsne h]
    · simp [hx]

/-- C3: every finite array of executions posted to `/executions` is split by
`handleExecutions` into single-symbol sub-batches, emitted in order of each
symbol's first occurrence in the array, each sub-batch containing exactly the
entries of that symbol in their original relative order. -/
theorem handleExecutions_splits_per_symbol (arr : List Execution) :
    handleExecutions arr =
      (firstSeen (arr.map Execution.symbol)).map
        (fun s => (arr.filter (fun e => e.symbol = s)).map Execution.toSimple) :=
  handleExecutions_eq arr

/-- C10: `handleExecutions` terminates on every finite input: it returns
immediately on the empty array emitting nothing, each recursive call receives
the strictly smaller sub-array of entries whose symbol differs from the first
entry's symbol, and it emits exactly one event per distinct symbol of the
input. -/
theorem handleExecutions_total :
    handleExecutions ([] : List Execution) = [] ∧
    (∀ (e : Execution) (rest : List Execution),
      ((e :: rest).filter (fun x => ¬ x.symbol = e.symbol)).length <
        (e :: rest).length) ∧
    (∀ arr : List Execution,
      (handleExecutions arr).length = (arr.map Execution.symbol).dedup.length) := by
  refine ⟨by simp [handleExecutions], fun e rest => ?_, fun arr => ?_⟩
  · simp only [List.filter_cons, decide_not, decide_True, Bool.not_true,
      Bool.false_eq_true, if_false]
    exact Nat.lt_succ_of_le (List.length_filter_le _ rest)
  · rw [handleExecutions_eq, List.length_map, length_firstSeen]

/-- One row of the store queries in `src/main.ts`
(`interface QuantityPerPriceAndSide`): the open quantity aggregated at one
price for one side.  The SQL expression
`SUM(orders.quantity) - COALESCE(SUM(executions.quantity), 0)` is an integer
that can in principle be negative, hence `ℤ`. -/
structure QuantityPerPriceAndSide where
  quantity : ℤ
  price : ℚ
  side : Side
deriving DecidableEq, Repr

/-- Helper for `jsFindIndex`, carrying the index of the current position. -/
def findIndexFrom (p : α → Bool) : List α → Nat → Int
  | [], _ => -1
  | x :: xs, i => if p x then (i : Int) else findIndexFrom p xs (i + 1)

/-- JavaScript `Array.prototype.findIndex`: the index of the first element
satisfying `p`, or `-1` when no element does. -/
def jsFindIndex (p : α → Bool) (l : List α) : Int :=
  findIndexFrom p l 0

theorem findIndexFrom_eq_neg_one_iff (p : α → Bool) (l : List α) (i : Nat) :
    findIndexFrom p l i = -1 ↔ ∀ x ∈ l, p x = false := by
  induction l generalizing i with
  | nil => simp [findIndexFrom]
  | cons x xs ih =>
    rw [findIndexFrom]
    by_cases hp : p x = true
    · simp only [hp, if_true]
      constructor
      · intro h
        omega
      · intro h
        exact absurd hp (by simp [h x (List.mem_cons_self x xs)])
    · have hp2 : p x = false := by simpa using hp
      simp only [hp2, Bool.false_eq_true, if_false]
      rw [ih (i + 1)]
      constructor
      · intro h y hy
        rcases List.mem_cons.mp hy with h1 | h1
        · subst h1
          simpa using hp
        · exact h y h1
      · intro h y hy
        exact h y (List.mem_cons_of_mem _ hy)

theorem jsFindIndex_eq_neg_one_iff (p : α → Bool) (l : List α) :
    jsFindIndex p l = -1 ↔ ∀ x ∈ l, p x = false :=
  findIndexFrom_eq_neg_one_iff p l 0

/-- The ask-side zero-padding loop of the `updates` branch of
`eventProcessor.subscribe` in `src/main.ts` (lines 261-265):
`if (asks.findIndex((a) => a.price === eA.price) === -1) asks.push({...})`. -/
def padAsks (qAsks : List QuantityPerPriceAndSide) (eventAsks : List SimpleExecution) :
    List QuantityPerPriceAndSide :=
  eventAsks.foldl
    (fun acc eA =>
      if jsFindIndex (fun a => a.price = eA.price) acc = -1 then
        acc ++ [⟨0, eA.price, eA.side⟩]
      else acc)
    qAsks

/-- The bid-side zero-padding loop of the `updates` branch of
`eventProcessor.subscribe` in `src/main.ts` (lines 266-273):
`if (bids.findIndex((b) => b.price === eventBid.price)) bids.push({...})` —
under JavaScript truthiness the push runs whenever `findIndex` is not `0`
(in particular when it is `-1`, i.e. the price is absent). -/
def padBids (qBids : List QuantityPerPriceAndSide) (eventBids : List SimpleExecution) :
    List QuantityPerPriceAndSide :=
  eventBids.foldl
    (fun acc eB =>
      if ¬ jsFindIndex (fun b => b.price = eB.price) acc = 0 then
        acc ++ [⟨0, eB.price, eB.side⟩]
      else acc)
    qBids

theorem pad_foldl_mono (step : List QuantityPerPriceAndSide → SimpleExecution →
      List QuantityPerPriceAndSide)
    (H1 : ∀ acc e x, x ∈ acc → x ∈ step acc e) :
    ∀ (l : List SimpleExecution) (acc : List QuantityPerPriceAndSide) (x),
      x ∈ acc → x ∈ l.foldl step acc := by
  intro l
  induction l with
  | nil => intro acc x hx; simpa using hx
  | cons e rest ih => intro acc x hx; exact ih (step acc e) x (H1 acc e x hx)

theorem pad_foldl_presence (step : List QuantityPerPriceAndSide → SimpleExecution →
      List QuantityPerPriceAndSide)
    (H1 : ∀ acc e x, x ∈ acc → x ∈ step acc e)
    (H3 : ∀ acc e, ∃ x ∈ step acc e, x.price = e.price) :
    ∀ (l : List SimpleExecution) (acc : List QuantityPerPriceAndSide) (e),
      e ∈ l → ∃ x ∈ l.foldl step acc, x.price = e.price := by
  intro l
  induction l with
  | nil => intro acc e he; simp at he
  | cons e0 rest ih =>
    intro acc e he
    rcases List.mem_cons.mp he with h1 | h1
    · subst h1
      obtain ⟨x, hx, hpx⟩ := H3 acc e
      exact ⟨x, pad_foldl_mono step H1 rest (step acc e) x hx, hpx⟩
    · exact ih (step acc e0) e h1

theorem pad_foldl_origin (step : List QuantityPerPriceAndSide → SimpleExecution →
      List QuantityPerPriceAndSide)
    (H2 : ∀ acc e x, x ∈ step acc e → x ∈ acc ∨ x.quantity = 0) :
    ∀ (l : List SimpleExecution) (acc : List QuantityPerPriceAndSide) (x),
      x ∈ l.foldl step acc → x ∈ acc ∨ x.quantity = 0 := by
  intro l
  induction l with
  | nil => intro acc x hx; exact Or.inl (by simpa using hx)
  | cons e rest ih =>
    intro acc x hx
    rcases ih (step acc e) x hx with h1 | h1
    · exact H2 acc e x h1
    · exact Or.inr h1

/-- C2: every price level referenced by an execution in the batch appears in
the emitted `updates` delta, and if the post-execution store query returned no
row at that price for that side, the padding loops of
`eventProcessor.subscribe` add an entry at that price with quantity `0`
rather than omitting it — for ask entries and bid entries alike. -/
theorem updates_delta_completeness
    (qAsks qBids : List QuantityPerPriceAndSide)
    (eventAsks eventBids : List SimpleExecution) :
    (∀ e ∈ eventAsks, ∃ x ∈ padAsks qAsks eventAsks, x.price = e.price) ∧
    (∀ e ∈ eventAsks, (∀ q ∈ qAsks, ¬ q.price = e.price) →
      ∃ x ∈ padAsks qAsks eventAsks, x.price = e.price ∧ x.quantity = 0) ∧
    (∀ e ∈ eventBids, ∃ x ∈ padBids qBids eventBids, x.price = e.price) ∧
    (∀ e ∈ eventBids, (∀ q ∈ qBids, ¬ q.price = e.price) →
      ∃ x ∈ padBids qBids eventBids, x.price = e.price ∧ x.quantity = 0) := by
  have HA1 : ∀ (acc : List QuantityPerPriceAndSide) (eA : SimpleExecution) x, x ∈ acc →
      x ∈ (if jsFindIndex (fun a => a.price = eA.price) acc = -1 then
        acc ++ [(⟨0, eA.price, eA.side⟩ : QuantityPerPriceAndSide)] else acc) := by
    intro acc eA x hx
    split
    · exact List.mem_append_left _ hx
    · exact hx
  have HA2 : ∀ (acc : List QuantityPerPriceAndSide) (eA : SimpleExecution) x,
      x ∈ (if jsFindIndex (fun a => a.price = eA.price) acc = -1 then
        acc ++ [(⟨0, eA.price, eA.side⟩ : QuantityPerPriceAndSide)] else acc) →
      x ∈ acc ∨ x.quantity = 0 := by
    intro acc eA x hx
    split at hx
    · rcases List.mem_append.mp hx with h1 | h1
      · exact Or.inl h1
      · right
        rw [List.mem_singleton.mp h1]
    · exact Or.inl hx
  have HA3 : ∀ (acc : List QuantityPerPriceAndSide) (eA : SimpleExecution),
      ∃ x ∈ (if jsFindIndex (fun a => a.price = eA.price) acc = -1 then
        acc ++ [(⟨0, eA.price, eA.side⟩ : QuantityPerPriceAndSide)] else acc),
      x.price = eA.price := by
    intro acc eA
    by_cases h : jsFindIndex (fun a => a.price = eA.price) acc = -1
    · rw [if_pos h]
      exact ⟨⟨0, eA.price, eA.side⟩,
        List.mem_append_right _ (List.mem_singleton.mpr rfl), rfl⟩
    · rw [if_neg h]
      have hne : ¬ ∀ x ∈ acc, (decide (x.price = eA.price)) = false :=
        fun hall => h ((jsFindIndex_eq_neg_one_iff _ _).mpr hall)
      push_neg at hne
      obtain ⟨x, hx, hpx⟩ := hne
      exact ⟨x, hx, of_decide_eq_true (by simpa using hpx)⟩
  have HB1 : ∀ (acc : List QuantityPerPriceAndSide) (eB : SimpleExecution) x, x ∈ acc →
      x ∈ (if ¬ jsFindIndex (fun b => b.price = eB.price) acc = 0 then
        acc ++ [(⟨0, eB.price, eB.side⟩ : QuantityPerPriceAndSide)] else acc) := by
    intro acc eB x hx
    split
    · exact List.mem_append_left _ hx
    · exact hx
  have HB2 : ∀ (acc : List QuantityPerPriceAndSide) (eB : SimpleExecution) x,
      x ∈ (if ¬ jsFindIndex (fun b => b.price = eB.price) acc = 0 then
        acc ++ [(⟨0, eB.price, eB.side⟩ : QuantityPerPriceAndSide)] else acc) →
      x ∈ acc ∨ x.quantity = 0 := by
    intro acc eB x hx
    split at hx
    · rcases List.mem_append.mp hx with h1 | h1
      · exact Or.inl h1
      · right
        rw [List.mem_singleton.mp h1]
    · exact Or.inl hx
  have HB3 : ∀ (acc : List QuantityPerPriceAndSide) (eB : SimpleExecution),
      ∃ x ∈ (if ¬ jsFindIndex (fun b => b.price = eB.price) acc = 0 then
        acc ++ [(⟨0, eB.price, eB.side⟩ : QuantityPerPriceAndSide)] else acc),
      x.price = eB.price := by
    intro acc eB
    by_cases h : jsFindIndex (fun b => b.price = eB.price) acc = 0
    · rw [if_neg (not_not_intro h)]
      have hne : ¬ ∀ x ∈ acc, (decide (x.price = eB.price)) = false := by
        intro hall
        have := (jsFindIndex_eq_neg_one_iff
          (fun b : QuantityPerPriceAndSide => b.price = eB.price) acc).mpr hall
        omega
      push_neg at hne
      obtain ⟨x, hx, hpx⟩ := hne
      exact ⟨x, hx, of_decide_eq_true (by simpa using hpx)⟩
    · rw [if_pos h]
      exact ⟨⟨0, eB.price, eB.side⟩,
        List.mem_append_right _ (List.mem_singleton.mpr rfl), rfl⟩
  refine ⟨fun e he => pad_foldl_presence _ HA1 HA3 eventAsks qAsks e he,
    fun e he hq => ?_,
    fun e he => pad_foldl_presence _ HB1 HB3 eventBids qBids e he,
    fun e he hq => ?_⟩
  · obtain ⟨x, hx, hpx⟩ := pad_foldl_presence _ HA1 HA3 eventAsks qAsks e he
    rcases pad_foldl_origin _ HA2 eventAsks qAsks x hx with h1 | h1
    · exact absurd hpx (hq x h1)
    · exact ⟨x, hx, hpx, h1⟩
  · obtain ⟨x, hx, hpx⟩ := pad_foldl_presence _ HB1 HB3 eventBids qBids e he
    rcases pad_foldl_origin _ HB2 eventBids qBids x hx with h1 | h1
    · exact absurd hpx (hq x h1)
    · exact ⟨x, hx, hpx, h1⟩

/-- Witness for C2 at a concrete input: an execution batch at ask price 150
and bid price 100 whose post-execution store queries return no rows produces
a delta containing both levels at quantity 0. -/
theorem updates_delta_completeness_witness :
    (∃ x ∈ padAsks [] [⟨150, Side.ask, "AAPL"⟩], x.price = 150 ∧ x.quantity = 0) ∧
    (∃ x ∈ padBids [] [⟨100, Side.bid, "AAPL"⟩], x.price = 100 ∧ x.quantity = 0) :=
  ⟨(updates_delta_completeness [] [] [⟨150, Side.ask, "AAPL"⟩] []).2.1
      ⟨150, Side.ask, "AAPL"⟩ (List.mem_singleton.mpr rfl) (by simp),
    (updates_delta_completeness [] [] [] [⟨100, Side.bid, "AAPL"⟩]).2.2.2
      ⟨100, Side.bid, "AAPL"⟩ (List.mem_singleton.mpr rfl) (by simp)⟩

/-- The head accesses `asks[0].symbol` and `bids[0].symbol` performed by
`getQuantitiesPerPrice` (`src/main.ts` lines 166-173) while assembling the two
store queries.  JavaScript evaluation of `asks[0].symbol` on an empty array
throws (`undefined` has no property `symbol`); the embedding returns `none`
exactly in that case. -/
def getQuantitiesPerPriceSymbols (asks bids : List SimpleExecution) :
    Option (String × String) :=
  match asks.head?, bids.head? with
  | some a, some b => some (a.symbol, b.symbol)
  | _, _ => none

/-- The side split of the `updates` branch of `eventProcessor.subscribe`
(`src/main.ts` lines 258-260) followed by the head accesses of
`getQuantitiesPerPrice`. -/
def processBatchAccess (event : List SimpleExecution) : Option (String × String) :=
  getQuantitiesPerPriceSymbols (event.filter (fun e => e.side = Side.ask))
    (event.filter (fun e => e.side = Side.bid))

theorem getQuantitiesPerPriceSymbols_isSome (asks bids : List SimpleExecution) :
    (getQuantitiesPerPriceSymbols asks bids).isSome ↔ asks ≠ [] ∧ bids ≠ [] := by
  cases asks <;> cases bids <;> simp [getQuantitiesPerPriceSymbols]

theorem filter_ne_nil_iff_exists {l : List SimpleExecution} {p : SimpleExecution → Bool} :
    l.filter p ≠ [] ↔ ∃ x ∈ l, p x = true := by
  constructor
  · intro h
    rcases hl : l.filter p with _ | ⟨x, xs⟩
    · exact absurd hl h
    · have hx : x ∈ l.filter p := hl ▸ List.mem_cons_self x xs
      exact ⟨x, List.mem_of_mem_filter hx, List.of_mem_filter hx⟩
  · rintro ⟨x, hx, hpx⟩ hnil
    have : x ∈ l.filter p := List.mem_filter.mpr ⟨hx, hpx⟩
    rw [hnil] at this
    simp at this

/-- C9: the updates pipeline is only safe when the incoming batch contains at
least one ask and at least one bid: a nonempty batch lying on one side makes
`getQuantitiesPerPrice` dereference element 0 of the empty other-side array
(`asks[0].symbol` / `bids[0].symbol`). -/
theorem updates_requires_both_sides (event : List SimpleExecution) :
    ((processBatchAccess event).isSome ↔
      (∃ a ∈ event, a.side = Side.ask) ∧ (∃ b ∈ event, b.side = Side.bid)) ∧
    ((∀ e ∈ event, e.side = Side.bid) → processBatchAccess event = none) ∧
    ((∀ e ∈ event, e.side = Side.ask) → processBatchAccess event = none) := by
  have hiff : (processBatchAccess event).isSome ↔
      (∃ a ∈ event, a.side = Side.ask) ∧ (∃ b ∈ event, b.side = Side.bid) := by
    rw [processBatchAccess, getQuantitiesPerPriceSymbols_isSome,
      filter_ne_nil_iff_exists, filter_ne_nil_iff_exists]
    simp
  refine ⟨hiff, fun hall => ?_, fun hall => ?_⟩
  · have : ¬ (processBatchAccess event).isSome := by
      rw [hiff]
      rintro ⟨⟨a, ha, hsa⟩, -⟩
      rw [hall a ha] at hsa
      exact absurd hsa (by simp)
    exact Option.not_isSome_iff_eq_none.mp this
  · have : ¬ (processBatchAccess event).isSome := by
      rw [hiff]
      rintro ⟨-, ⟨b, hb, hsb⟩⟩
      rw [hall b hb] at hsb
      exact absurd hsb (by simp)
    exact Option.not_isSome_iff_eq_none.mp this

/-- Witness for C9 at a concrete input: a batch consisting of a single bid
makes the pipeline hit the empty-ask head access. -/
theorem updates_requires_both_sides_witness :
    processBatchAccess [⟨100, Side.bid, "AAPL"⟩] = none :=
  (updates_requires_both_sides [⟨100, Side.bid, "AAPL"⟩]).2.1 (by decide)

/-- Stable insertion (after existing entries with an equal key) of an
`(index, completionTime)` pair into a list sorted by completion time. -/
def insertByCompletion (p : Nat × Nat) : List (Nat × Nat) → List (Nat × Nat)
  | [] => [p]
  | q :: rest => if p.2 < q.2 then p :: q :: rest else q :: insertByCompletion p rest

/-- Completion-time model of the unserialised dispatch in
`eventProcessor.subscribe` (`src/main.ts` lines 255-285,
`src/unnamed/part_000` lines 264-342): event number `i` in ingestion order
issues its own store lookup at ingestion time `i`; the reply arrives after
`lat[i]` further ticks and the delta is emitted inside that promise's `then`
callback.  Nothing chains one event's promise onto the previous event's, so
the deltas reach the subscribers ordered by completion time
(`i + lat[i]`, ties resolved in ingestion order). -/
def emissionOrder (lat : List Nat) : List Nat :=
  ((lat.enum.map (fun x => (x.1, x.1 + x.2))).foldl
    (fun acc p => insertByCompletion p acc) []).map Prod.fst

/-- The ingestion order of `n` events submitted through `eventProcessor`. -/
def ingestionOrder (n : Nat) : List Nat := List.range n

/-- C1 (code bug): with two same-symbol events whose store lookups take 5
ticks and 0 ticks respectively, the unserialised dispatch emits the deltas as
`[1, 0]` — the second-ingested event's delta overtakes the first's, so
dispatch order does not match ingestion order. -/
theorem deltas_reorder_under_slow_first_lookup :
    emissionOrder [5, 0] = [1, 0] ∧
    ingestionOrder 2 = [0, 1] ∧
    emissionOrder [5, 0] ≠ ingestionOrder 2 := by
  refine ⟨by decide, by decide, by decide⟩

/-- Modelled from the spec (§4.5): the repository contains no minute
aggregation scheduler (no timer is armed anywhere under `src/`); the spec
defines its initial delay as `60000 - (nowMs mod 60000)`. -/
def initialDelay (nowMs : Nat) : Nat := 60000 - nowMs % 60000

/-- Modelled from the spec (§4.5): the instant of the scheduler's `k`-th fire
when the process started at `nowMs` (first fire after the initial delay, then
a fixed 60-second period). -/
def fireTime (nowMs k : Nat) : Nat := nowMs + initialDelay nowMs + 60000 * k

/-- Modelled from the spec (§4.5): the half-open interval
`[previousBoundary, currentBoundary)` aggregated at the `k`-th fire. -/
def aggregationWindow (nowMs k : Nat) : Nat × Nat :=
  (fireTime nowMs k - 60000, fireTime nowMs k)

/-- C5: the initial delay `60000 - (nowMs mod 60000)` makes the first fire
land exactly on the next wall-clock minute boundary, subsequent fires occur
at a fixed 60-second period, each fire covers exactly the just-completed
60-second interval ending at the fire instant, and a start at 12:00:37
(43237000 ms into the day) fires first at 12:01:00 (43260000 ms) with delay
23 s, covering [12:00:00, 12:01:00). -/
theorem scheduler_minute_alignment (nowMs : Nat) :
    fireTime nowMs 0 = 60000 * (nowMs / 60000 + 1) ∧
    nowMs < fireTime nowMs 0 ∧
    fireTime nowMs 0 % 60000 = 0 ∧
    (∀ k, fireTime nowMs (k + 1) = fireTime nowMs k + 60000) ∧
    (∀ k, (aggregationWindow nowMs k).2 = fireTime nowMs k ∧
      (aggregationWindow nowMs k).2 - (aggregationWindow nowMs k).1 = 60000) ∧
    initialDelay 43237000 = 23000 ∧
    fireTime 43237000 0 = 43260000 ∧
    aggregationWindow 43237000 0 = (43200000, 43260000) := by
  have hmod : nowMs % 60000 < 60000 := Nat.mod_lt _ (by norm_num)
  have hdm := Nat.div_add_mod nowMs 60000
  refine ⟨?_, ?_, ?_, fun k => ?_, fun k => ⟨rfl, ?_⟩, ?_, ?_, ?_⟩
  · simp only [fireTime, initialDelay]
    omega
  · simp only [fireTime, initialDelay]
    omega
  · have h1 : fireTime nowMs 0 = 60000 * (nowMs / 60000 + 1) := by
      simp only [fireTime, initialDelay]
      omega
    rw [h1]
    exact Nat.mul_mod_right _ _
  · simp only [fireTime]
    ring
  · simp only [aggregationWindow, fireTime, initialDelay]
    omega
  · norm_num [initialDelay]
  · norm_num [fireTime, initialDelay]
  · norm_num [aggregationWindow, fireTime, initialDelay]

/-- Modelled from the spec (§4.4): the repository contains no Correction
Reconciler implementation under `src/`; this is the client-side candidate
entry (`secnum` plus the client's remembered remaining quantity) submitted
for reconciliation. -/
structure Candidate where
  secnum : Nat
  quantity : Nat
deriving DecidableEq, Repr

/-- Modelled from the spec (§4.4): a correction instruction,
`Update(corrected quantity)` or `Delete(secnum)`. -/
inductive Instruction where
  | update (quantity : Nat)
  | delete (secnum : Nat)
deriving DecidableEq, Repr

/-- Modelled from the spec (§4.4): per-side reconciliation against the stored
remaining quantity looked up by `secnum` (`store` is `orderBySecnum`'s
remaining quantity).  No instruction if the stored quantity equals the
candidate's; `Delete` if the stored quantity is 0; otherwise `Update` with
the corrected quantity. -/
def reconcileSide (store : Nat → Nat) (c : Candidate) : Option Instruction :=
  if store c.secnum = c.quantity then none
  else if store c.secnum = 0 then some (Instruction.delete c.secnum)
  else some (Instruction.update (store c.secnum))

/-- Modelled from the spec (§4.4): `reconcile(candidateAsk, candidateBid)`
treats the two sides independently. -/
def reconcile (store : Nat → Nat) (ca cb : Candidate) :
    Option Instruction × Option Instruction :=
  (reconcileSide store ca, reconcileSide store cb)

/-- Modelled from the spec (§4.4): how a client folds an instruction into its
candidate — `Update` corrects the quantity, `Delete` evicts the entry, no
instruction leaves it unchanged. -/
def applyInstruction (c : Candidate) : Option Instruction → Option Candidate
  | none => some c
  | some (Instruction.update q) => some ⟨c.secnum, q⟩
  | some (Instruction.delete _) => none

/-- C4: per side, `reconcile` returns no instruction when the stored
remaining quantity equals the candidate's, `Delete(secnum)` when the stored
quantity is 0, and otherwise `Update` with the corrected quantity; and after
the client applies the returned instructions, a second `reconcile` with no
intervening executions returns no instruction. -/
theorem reconcile_policy_idempotent (store : Nat → Nat) (ca cb : Candidate) :
    (store ca.secnum = ca.quantity → (reconcile store ca cb).1 = none) ∧
    (¬ store ca.secnum = ca.quantity → store ca.secnum = 0 →
      (reconcile store ca cb).1 = some (Instruction.delete ca.secnum)) ∧
    (¬ store ca.secnum = ca.quantity → ¬ store ca.secnum = 0 →
      (reconcile store ca cb).1 = some (Instruction.update (store ca.secnum))) ∧
    (store cb.secnum = cb.quantity → (reconcile store ca cb).2 = none) ∧
    (¬ store cb.secnum = cb.quantity → store cb.secnum = 0 →
      (reconcile store ca cb).2 = some (Instruction.delete cb.secnum)) ∧
    (¬ store cb.secnum = cb.quantity → ¬ store cb.secnum = 0 →
      (reconcile store ca cb).2 = some (Instruction.update (store cb.secnum))) ∧
    (∀ ca2 cb2,
      applyInstruction ca (reconcile store ca cb).1 = some ca2 →
      applyInstruction cb (reconcile store ca cb).2 = some cb2 →
      reconcile store ca2 cb2 = (none, none)) := by
  have hside : ∀ (c c2 : Candidate),
      applyInstruction c (reconcileSide store c) = some c2 →
      reconcileSide store c2 = none := by
    intro c c2 happ
    by_cases h1 : store c.secnum = c.quantity
    · rw [reconcileSide, if_pos h1] at happ
      have hc : c2 = c := by simpa [applyInstruction] using happ.symm
      rw [hc, reconcileSide, if_pos h1]
    · by_cases h2 : store c.secnum = 0
      · rw [reconcileSide, if_neg h1, if_pos h2] at happ
        simp [applyInstruction] at happ
      · rw [reconcileSide, if_neg h1, if_neg h2] at happ
        have hc : c2 = ⟨c.secnum, store c.secnum⟩ := by
          simpa [applyInstruction] using happ.symm
        rw [hc, reconcileSide]
        simp
  refine ⟨fun h => ?_, fun h1 h2 => ?_, fun h1 h2 => ?_,
    fun h => ?_, fun h1 h2 => ?_, fun h1 h2 => ?_, fun ca2 cb2 ha hb => ?_⟩
  · simp [reconcile, reconcileSide, h]
  · rw [h2] at h1
    simp [reconcile, reconcileSide, h1, h2, fun h : ca.quantity = 0 => h1 h.symm]
  · simp [reconcile, reconcileSide, h1, h2]
  · simp [reconcile, reconcileSide, h]
  · rw [h2] at h1
    simp [reconcile, reconcileSide, h1, h2, fun h : cb.quantity = 0 => h1 h.symm]
  · simp [reconcile, reconcileSide, h1, h2]
  · have hra := hside ca ca2 ha
    have hrb := hside cb cb2 hb
    simp [reconcile, hra, hrb]

/-- Witness for C4 at a concrete input: a store holding 40 remaining for
secnum 1 and 0 for everything else; the ask candidate (secnum 1, quantity
100) gets `Update 40`, the bid candidate (secnum 2, quantity 7) gets
`Delete 2`, and applying the ask update then reconciling again yields no
instruction on the ask side. -/
theorem reconcile_policy_idempotent_witness :
    (reconcile (fun n => if n = 1 then 40 else 0) ⟨1, 100⟩ ⟨2, 7⟩).1 =
      some (Instruction.update 40) ∧
    (reconcile (fun n => if n = 1 then 40 else 0) ⟨1, 100⟩ ⟨2, 7⟩).2 =
      some (Instruction.delete 2) ∧
    (reconcile (fun n => if n = 1 then 40 else 0) ⟨1, 40⟩ ⟨1, 40⟩ = (none, none)) := by
  refine ⟨(reconcile_policy_idempotent _ ⟨1, 100⟩ ⟨2, 7⟩).2.2.1 (by decide) (by decide),
    (reconcile_policy_idempotent _ ⟨1, 100⟩ ⟨2, 7⟩).2.2.2.2.1 (by decide) (by decide),
    ?_⟩
  refine (reconcile_policy_idempotent (fun n => if n = 1 then 40 else 0)
    ⟨1, 100⟩ ⟨1, 100⟩).2.2.2.2.2.2 ⟨1, 40⟩ ⟨1, 40⟩ ?_ ?_ <;> decide

/-- One order row inside one `(symbol, side, minute-interval)` group of
`getAveragePrice`. -/
structure TradeRow where
  price : ℚ
  quantity : ℚ
deriving DecidableEq, Repr

/-- `AVG(orders.price)` — the per-group aggregate computed by the query that
`getAveragePrice` actually executes in `src/unnamed/part_000` (line 104). -/
def avgPriceCode (rows : List TradeRow) : ℚ :=
  (rows.map TradeRow.price).sum / rows.length

/-- `SUM(orders.price * orders.quantity) / SUM(orders.quantity)` — the
volume-weighted average required by the spec; `src/main.ts` (line 96) builds
this query string but then executes a plain `SELECT *` instead. -/
def volumeWeightedAverage (rows : List TradeRow) : ℚ :=
  (rows.map (fun r => r.price * r.quantity)).sum / (rows.map TradeRow.quantity).sum

/-- C6 (code bug): on the group with trades (price 10, quantity 1) and
(price 20, quantity 3), the executed query reports the unweighted mean 15
while the volume-weighted average is 17.5; the reported average is not
`Σ(price·quantity)/Σ(quantity)`. -/
theorem average_price_unweighted_divergence :
    avgPriceCode [⟨10, 1⟩, ⟨20, 3⟩] = 15 ∧
    volumeWeightedAverage [⟨10, 1⟩, ⟨20, 3⟩] = 35 / 2 ∧
    avgPriceCode [⟨10, 1⟩, ⟨20, 3⟩] ≠ volumeWeightedAverage [⟨10, 1⟩, ⟨20, 3⟩] := by
  refine ⟨by norm_num [avgPriceCode], by norm_num [volumeWeightedAverage], ?_⟩
  norm_num [avgPriceCode, volumeWeightedAverage]

/-- Structural first-occurrence deduplication: models the distinct
`GROUP BY` keys of a query result set. -/
def dedupFirst {α : Type} [DecidableEq α] : List α → List α
  | [] => []
  | x :: xs => x :: (dedupFirst xs).filter (fun y => ¬ y = x)

theorem mem_of_mem_dedupFirst {α : Type} [DecidableEq α] {l : List α} {x : α}
    (h : x ∈ dedupFirst l) : x ∈ l := by
  induction l with
  | nil => simp [dedupFirst] at h
  | cons a xs ih =>
    rw [dedupFirst] at h
    rcases List.mem_cons.mp h with h1 | h1
    · simp [h1]
    · exact List.mem_cons_of_mem _ (ih (List.mem_of_mem_filter h1))

/-- One persisted row of the `orders` table.  The `filled` flag is what the
snapshot query filters on; it is maintained upstream, not by this service. -/
structure StoredOrder where
  secnum : Nat
  symbol : String
  side : Side
  price : ℚ
  quantity : Nat
  filled : Bool
deriving DecidableEq, Repr

/-- One persisted row of the `executions` table. -/
structure ExecutionRow where
  secnum : Nat
  quantity : Nat
deriving DecidableEq, Repr

/-- The execution rows joined to order `o` by
`LEFT JOIN executions ON orders.secnum = executions.secnum`. -/
def joinedExecs (execs : List ExecutionRow) (o : StoredOrder) : List ExecutionRow :=
  execs.filter (fun x => x.secnum = o.secnum)

/-- The number of joined rows order `o` contributes to its group: a LEFT JOIN
produces one row per matching execution, or one null-padded row when none
matches. -/
def joinRowCount (execs : List ExecutionRow) (o : StoredOrder) : Nat :=
  max 1 (joinedExecs execs o).length

/-- `COALESCE(SUM(executions.quantity), 0)` restricted to the joined rows of
one order. -/
def orderExecSum (execs : List ExecutionRow) (o : StoredOrder) : ℤ :=
  ((joinedExecs execs o).map (fun x => (x.quantity : ℤ))).sum

/-- `getOrderBook` from `src/main.ts` (lines 110-132): all orders of the
symbol with `filled = FALSE`, LEFT JOINed to `executions` and grouped by
`(price, side)`; each group reports
`SUM(orders.quantity) - COALESCE(SUM(executions.quantity), 0)` over its
joined rows (so an order with `k ≥ 1` matching executions contributes its
quantity `k` times to the first sum).  The query's `ORDER BY` only fixes
presentation order; the embedding keeps groups in first-occurrence order. -/
def getOrderBook (orders : List StoredOrder) (execs : List ExecutionRow)
    (symbol : String) : List QuantityPerPriceAndSide :=
  let relevant := orders.filter (fun o => o.filled = false ∧ o.symbol = symbol)
  (dedupFirst (relevant.map (fun o => (o.price, o.side)))).map (fun k =>
    ⟨((relevant.filter (fun o => o.price = k.1 ∧ o.side = k.2)).map
        (fun o => (joinRowCount execs o : ℤ) * (o.quantity : ℤ))).sum -
      ((relevant.filter (fun o => o.price = k.1 ∧ o.side = k.2)).map
        (fun o => orderExecSum execs o)).sum,
      k.1, k.2⟩)

/-- C7 counterexample: a stored order with `filled = FALSE` whose executions
already consume its full quantity (the flag lags the fills) makes the
room-join snapshot emit a price level at quantity 0 — so the snapshot payload
does not contain only levels with quantity > 0. -/
theorem snapshot_emits_zero_quantity_level :
    getOrderBook [⟨1, "AAPL", Side.ask, 150, 100, false⟩] [⟨1, 100⟩] "AAPL" =
      [⟨0, 150, Side.ask⟩] ∧
    ¬ (0 : ℤ) < (QuantityPerPriceAndSide.mk 0 150 Side.ask).quantity := by
  constructor <;> decide

theorem sum_map_sub_int {α : Type} (l : List α) (f g : α → ℤ) :
    (l.map f).sum - (l.map g).sum = (l.map (fun o => f o - g o)).sum := by
  induction l with
  | nil => simp
  | cons a xs ih =>
    simp only [List.map_cons, List.sum_cons]
    omega

/-- C7 amended: the snapshot reflects exactly the orders whose `filled` flag
is `FALSE`; when that flag is in sync with the fills — every `filled = FALSE`
order still has executed quantity strictly below its original quantity —
every price level in the emitted orderBook payload has quantity > 0. -/
theorem snapshot_positive_under_flag_sync
    (orders : List StoredOrder) (execs : List ExecutionRow) (symbol : String)
    (hinv : ∀ o ∈ orders, o.filled = false → orderExecSum execs o < (o.quantity : ℤ)) :
    ∀ x ∈ getOrderBook orders execs symbol, 0 < x.quantity := by
  intro x hx
  simp only [getOrderBook] at hx
  obtain ⟨k, hk, hxeq⟩ := List.mem_map.mp hx
  subst hxeq
  simp only
  rw [sum_map_sub_int]
  set relevant := orders.filter (fun o => o.filled = false ∧ o.symbol = symbol) with hrel
  set group := relevant.filter (fun o => o.price = k.1 ∧ o.side = k.2) with hgrp
  have hpos : ∀ v ∈ group.map (fun o => (joinRowCount execs o : ℤ) * (o.quantity : ℤ) -
      orderExecSum execs o), 0 < v := by
    intro v hv
    obtain ⟨o, ho, hveq⟩ := List.mem_map.mp hv
    subst hveq
    have ho1 : o ∈ relevant := List.mem_of_mem_filter ho
    have ho2 : o ∈ orders := List.mem_of_mem_filter ho1
    have hof : o.filled = false := by
      have := List.of_mem_filter ho1
      simp at this
      exact this.1
    have hlt := hinv o ho2 hof
    have hrc : (1 : ℤ) ≤ (joinRowCount execs o : ℤ) := by
      have : 1 ≤ joinRowCount execs o := le_max_left _ _
      exact_mod_cast this
    have hq0 : (0 : ℤ) ≤ (o.quantity : ℤ) := Int.natCast_nonneg _
    nlinarith
  have hne : group ≠ [] := by
    obtain ⟨o, ho, hkey⟩ := List.mem_map.mp (mem_of_mem_dedupFirst hk)
    intro hnil
    have hmem : o ∈ group := by
      refine List.mem_filter.mpr ⟨ho, ?_⟩
      have h1 : o.price = k.1 := by rw [← hkey]
      have h2 : o.side = k.2 := by rw [← hkey]
      simp [h1, h2]
    rw [hnil] at hmem
    simp at hmem
  refine List.sum_pos _ hpos ?_
  intro hmapnil
  exact hne (List.map_eq_nil_iff.mp hmapnil)

/-- Witness for C7's amended claim at a concrete input: one open AAPL ask
order of quantity 100 with 40 executed yields a snapshot whose (single) head
level has positive quantity. -/
theorem snapshot_positive_under_flag_sync_witness :
    0 < ((getOrderBook [⟨1, "AAPL", Side.ask, 150, 100, false⟩] [⟨1, 40⟩] "AAPL").headD
      ⟨0, 0, Side.ask⟩).quantity :=
  snapshot_positive_under_flag_sync [⟨1, "AAPL", Side.ask, 150, 100, false⟩]
    [⟨1, 40⟩] "AAPL" (by decide) _ (by decide)

/-- `interface Order` from `src/main.ts`: the body of `POST /order`. -/
structure Order where
  secnum : Nat
  quantity : Nat
  price : ℚ
  symbol : String
  side : Side
deriving DecidableEq, Repr

/-- `class SimpleOrder` from `src/main.ts` (lines 34-50): the projection the
`/order` route pushes onto the event bus — it carries no `secnum` field. -/
structure SimpleOrder where
  quantity : Nat
  price : ℚ
  symbol : String
  side : Side
deriving DecidableEq, Repr

/-- The `/order` route handler (`src/main.ts` lines 197-203):
`new SimpleOrder(order.quantity, order.price, order.symbol, order.side)`
pushed once onto `eventProcessor`. -/
def postOrder (o : Order) : SimpleOrder :=
  ⟨o.quantity, o.price, o.symbol, o.side⟩

/-- The `newOrder` wire payload built by the non-array branch of
`eventProcessor.subscribe` in `src/unnamed/part_000` (lines 334-341):
`{ price: event.price, side: event.side, quantity: event.quantity }`. -/
structure NewOrderPayload where
  price : ℚ
  side : Side
  quantity : Nat
deriving DecidableEq, Repr

/-- The non-array branch of `eventProcessor.subscribe`
(`src/unnamed/part_000` lines 334-341): a single emit to the room named by
the event's symbol. -/
def processOrderEvent (e : SimpleOrder) : List (String × NewOrderPayload) :=
  [(e.symbol, ⟨e.price, e.side, e.quantity⟩)]

/-- End-to-end pipeline of one `POST /order`: route handler, event bus,
subscriber emission. -/
def orderPipeline (o : Order) : List (String × NewOrderPayload) :=
  processOrderEvent (postOrder o)

/-- C8 counterexample: two orders that differ only in `secnum` produce
identical emissions, so the `newOrder` delta cannot carry the full order
fields — `secnum` (already dropped by `SimpleOrder` at ingestion) and
`symbol` are absent from the payload. -/
theorem newOrder_delta_drops_secnum :
    orderPipeline ⟨1, 10, 5, "AAPL", Side.ask⟩ =
      orderPipeline ⟨2, 10, 5, "AAPL", Side.ask⟩ ∧
    (1 : Nat) ≠ 2 := by
  constructor <;> decide

/-- C8 amended: every order posted to `/order` produces exactly one
`newOrder` emission, sent only to the room named by the order's symbol, whose
payload carries the order's price, side and quantity (but neither `secnum`
nor `symbol`). -/
theorem newOrder_delta_emission (o : Order) :
    (orderPipeline o).length = 1 ∧
    ∀ rp ∈ orderPipeline o, rp.1 = o.symbol ∧ rp.2.price = o.price ∧
      rp.2.side = o.side ∧ rp.2.quantity = o.quantity := by
  refine ⟨rfl, fun rp hrp => ?_⟩
  have : rp = (o.symbol, ⟨o.price, o.side, o.quantity⟩) := by
    simpa [orderPipeline, processOrderEvent, postOrder] using hrp
  subst this
  exact ⟨rfl, rfl, rfl, rfl⟩

/-- Witness for C8's amended claim at a concrete order. -/
theorem newOrder_delta_emission_witness :
    (orderPipeline ⟨1, 10, 5, "AAPL", Side.ask⟩).length = 1 ∧
    ((("AAPL", ⟨5, Side.ask, 10⟩) : String × NewOrderPayload).1 = "AAPL" ∧
      (NewOrderPayload.mk 5 Side.ask 10).price = 5 ∧
      (NewOrderPayload.mk 5 Side.ask 10).side = Side.ask ∧
      (NewOrderPayload.mk 5 Side.ask 10).quantity = 10) :=
  ⟨(newOrder_delta_emission ⟨1, 10, 5, "AAPL", Side.ask⟩).1,
    (newOrder_delta_emission ⟨1, 10, 5, "AAPL", Side.ask⟩).2
      ("AAPL", ⟨5, Side.ask, 10⟩) (by decide)⟩

end MDP
